import Mathlib

/-!
Verification of the translation resource cache / loader / completeness
checker of the invoicy-flow-freelance repository.

The definitions below are shallow embeddings of:
  * `TranslationCache` (src/src/i18n/config.ts, lines 20-86),
  * `loadTranslationWithRetry` (src/src/i18n/config.ts, lines 99-176),
  * the retry backoff delay (src/src/i18n/config.ts, line 172),
  * the `TranslationChecker` script (src/scripts/check-translations.js),
  * the enhanced `t` wrapper of `useTranslation` (src/unnamed/part_000).

JavaScript `Map` objects are embedded as association lists in insertion
order (a JS `Map` iterates in insertion order; `set` of an existing key
updates the value in place, `set` of a new key appends, `delete` removes
the entry preserving the order of the others).  Translation dictionaries
(parsed JSON namespace files) are embedded as the `JSON` tree type below:
the repository's dictionaries are trees whose leaves are strings.
-/

/-- A parsed JSON translation dictionary: a tree with string leaves.
Object fields are kept in order, mirroring JS object key order. -/
inductive JSON where
  | str (s : String)
  | obj (fields : List (String × JSON))

mutual

/-- Structural equality test for `JSON` trees. -/
def JSON.beq : JSON → JSON → Bool
  | .str a, .str b => a == b
  | .obj a, .obj b => JSON.beqFields a b
  | _, _ => false

/-- Structural equality test for `JSON` object field lists. -/
def JSON.beqFields : List (String × JSON) → List (String × JSON) → Bool
  | [], [] => true
  | (k1, v1) :: r1, (k2, v2) :: r2 =>
      k1 == k2 && JSON.beq v1 v2 && JSON.beqFields r1 r2
  | _, _ => false

end

mutual

theorem JSON.beq_iff : ∀ a b : JSON, (JSON.beq a b = true) ↔ a = b
  | .str a, .str b => by simp [JSON.beq]
  | .str _, .obj _ => by simp [JSON.beq]
  | .obj _, .str _ => by simp [JSON.beq]
  | .obj a, .obj b => by simp [JSON.beq, JSON.beqFields_iff a b]

theorem JSON.beqFields_iff :
    ∀ a b : List (String × JSON), (JSON.beqFields a b = true) ↔ a = b
  | [], [] => by simp [JSON.beqFields]
  | [], _ :: _ => by simp [JSON.beqFields]
  | _ :: _, [] => by simp [JSON.beqFields]
  | (k1, v1) :: r1, (k2, v2) :: r2 => by
      simp [JSON.beqFields, JSON.beq_iff v1 v2, JSON.beqFields_iff r1 r2,
        Bool.and_assoc, and_assoc]

end

instance : DecidableEq JSON := fun a b =>
  decidable_of_iff (JSON.beq a b = true) (JSON.beq_iff a b)

/-- A JavaScript `Map` (insertion-ordered association list). -/
abbrev JSMap (κ α : Type) := List (κ × α)

/-- Embeds `Map.prototype.has`. -/
def jsMapHas {κ α : Type} [DecidableEq κ] (m : JSMap κ α) (k : κ) : Bool :=
  m.any (fun p => decide (p.1 = k))

/-- Embeds `Map.prototype.get` (`none` when the key is absent). -/
def jsMapGet {κ α : Type} [DecidableEq κ] (m : JSMap κ α) (k : κ) : Option α :=
  (m.find? (fun p => decide (p.1 = k))).map (fun p => p.2)

/-- Embeds `Map.prototype.set`: update in place when the key is present,
append otherwise. -/
def jsMapSet {κ α : Type} [DecidableEq κ] (m : JSMap κ α) (k : κ) (v : α) :
    JSMap κ α :=
  if jsMapHas m k then
    m.map (fun p => if p.1 = k then (k, v) else p)
  else
    m ++ [(k, v)]

/-- Embeds `Map.prototype.delete`. -/
def jsMapDelete {κ α : Type} [DecidableEq κ] (m : JSMap κ α) (k : κ) :
    JSMap κ α :=
  m.filter (fun p => decide (p.1 ≠ k))

/-- The in-memory translation cache (config.ts lines 20-86).
`α` is the type of cached dictionary values; the loader instantiates it
with `JSON`, the aliasing model of claim C3 with heap addresses. -/
structure TranslationCache (α : Type) where
  cache : JSMap String α
  accessOrder : JSMap String Nat
  accessCounter : Nat
deriving DecidableEq

/-- The capacity `maxSize = 50` (config.ts line 23). -/
def cacheMaxSize : Nat := 50

/-- The empty cache (fresh `new TranslationCache()`). -/
def cacheEmpty {α : Type} : TranslationCache α := ⟨[], [], 0⟩

/-- The loop body of `getLRUKey` (config.ts lines 69-74): keep the
entry with the strictly smallest access counter seen so far (the first
entry wins ties, as `access < minAccess` is strict).  The accumulator
`none` models the initial `lruKey = null` / `minAccess = Infinity`
pair. -/
def lruStep (acc : Option (String × Nat)) (p : String × Nat) :
    Option (String × Nat) :=
  match acc with
  | none => some p
  | some q => if p.2 < q.2 then some p else some q

/-- Embeds `getLRUKey` (config.ts lines 65-77). -/
def getLRUKey (accessOrder : JSMap String Nat) : Option String :=
  (accessOrder.foldl lruStep none).map (fun p => p.1)

/-- Embeds `get` (config.ts lines 27-34): on a hit, bump the access counter and
record the new recency; on a miss return `none`, which embeds the
literal `return null` of line 33, leaving the state untouched. -/
def TranslationCache.get {α : Type} (c : TranslationCache α) (key : String) :
    Option α × TranslationCache α :=
  if jsMapHas c.cache key then
    (jsMapGet c.cache key,
     { c with
        accessCounter := c.accessCounter + 1,
        accessOrder := jsMapSet c.accessOrder key (c.accessCounter + 1) })
  else
    (none, c)

/-- Embeds `set` (config.ts lines 36-53).  When the cache is full and the key
is new, `getLRUKey` is consulted; the JS guard `if (lruKey)` is a
truthiness test, so eviction is skipped not only for `null` but also
when the LRU key is the empty string.  The stored value is
`JSON.parse(JSON.stringify(value))`, a deep clone that is value-equal
to the input; the heap-level copy semantics are modelled separately
(see `RefCache` below). -/
def TranslationCache.set {α : Type} (c : TranslationCache α) (key : String)
    (value : α) : TranslationCache α :=
  let c' :=
    if cacheMaxSize ≤ c.cache.length ∧ jsMapHas c.cache key = false then
      match getLRUKey c.accessOrder with
      | some lruKey =>
          if lruKey = "" then c
          else
            { c with
                cache := jsMapDelete c.cache lruKey,
                accessOrder := jsMapDelete c.accessOrder lruKey }
      | none => c
    else c
  { cache := jsMapSet c'.cache key value,
    accessOrder := jsMapSet c'.accessOrder key (c'.accessCounter + 1),
    accessCounter := c'.accessCounter + 1 }

/-- Embeds `has` (config.ts lines 55-57). -/
def TranslationCache.has {α : Type} (c : TranslationCache α) (key : String) :
    Bool :=
  jsMapHas c.cache key

/-- Embeds `clear` (config.ts lines 59-63). -/
def TranslationCache.clearOp {α : Type} (_ : TranslationCache α) :
    TranslationCache α :=
  ⟨[], [], 0⟩

/-- One cache operation, for quantifying over operation sequences. -/
inductive CacheOp (α : Type) where
  | get (key : String)
  | set (key : String) (value : α)
  | clear

/-- Apply one operation to the cache state. -/
def applyOp {α : Type} (c : TranslationCache α) : CacheOp α → TranslationCache α
  | .get k => (c.get k).2
  | .set k v => c.set k v
  | .clear => c.clearOp

/-- Run a sequence of cache operations from a starting state. -/
def applyOps {α : Type} (c : TranslationCache α) (ops : List (CacheOp α)) :
    TranslationCache α :=
  ops.foldl applyOp c

/-- An operation whose key is nonempty (the empty string is falsy in JS,
which defeats the `if (lruKey)` eviction guard). -/
def CacheOp.keyOk {α : Type} : CacheOp α → Bool
  | .get k => decide (k ≠ "")
  | .set k _ => decide (k ≠ "")
  | .clear => true

/-! ## Loader: `loadTranslationWithRetry` (config.ts lines 99-176) -/

/-- The outcome of one `fetch` of `/src/locales/{language}/{namespace}.json`:
a 2xx response with a well-formed JSON body, a non-2xx status (the code
throws `HTTP <status>`), a transport error (the `fetch` promise rejects),
or a 2xx response whose body fails to parse (`response.json()` rejects). -/
inductive FetchOutcome where
  | ok (dict : JSON)
  | httpError (status : Nat)
  | netError
  | badJson

/-- The body of one loop iteration up to `response.json()`: every
non-`ok` outcome ends in a thrown exception, which the surrounding
`catch` receives. -/
def attemptFetch : FetchOutcome → Except String JSON
  | .ok d => .ok d
  | .httpError status => .error ("HTTP " ++ toString status)
  | .netError => .error "TypeError: Failed to fetch"
  | .badJson => .error "SyntaxError: Unexpected token"

/-- Whether an outcome lands in the `catch` block. -/
def FetchOutcome.isFailure (o : FetchOutcome) : Bool :=
  match attemptFetch o with
  | .ok _ => false
  | .error _ => true

/-- The `for (let attempt = 1; attempt <= retries; attempt++)` loop
(config.ts lines 127-175).  `outcomes i` is the result of the fetch
issued on attempt `i`; `fuel` is `retries - attempt + 1`, the number of
iterations still allowed.  Returns the produced value (`none` embeds the
`undefined` a JS function returns when the loop is exhausted, which is
unreachable for `retries ≥ 1`), the number of fetch attempts performed,
and the final cache state.  On success the dictionary is stored in the
cache (line 147); on the final failed attempt `{}` is returned
(line 168). -/
def loadAttempts (outcomes : Nat → FetchOutcome) (cacheKey : String)
    (c : TranslationCache JSON) :
    Nat → Nat → Option JSON × Nat × TranslationCache JSON
  | _, 0 => (none, 0, c)
  | attempt, fuel + 1 =>
    match attemptFetch (outcomes attempt) with
    | .ok translations => (some translations, 1, c.set cacheKey translations)
    | .error _ =>
        if fuel = 0 then
          -- attempt === retries: return {} (config.ts line 168)
          (some (JSON.obj []), 1, c)
        else
          let r := loadAttempts outcomes cacheKey c (attempt + 1) fuel
          (r.1, r.2.1 + 1, r.2.2)

/-- Embeds `loadTranslationWithRetry` (config.ts lines 99-176), with the pure
metrics/logging statements omitted.  The cache key is
`` `${language}-${namespace}` `` (line 104).  On a cache hit (lines
110-123) the cached dictionary is returned with zero fetch attempts
(the hit itself bumps the entry's recency through `get`); on a miss the
retry loop runs. -/
def loadTranslationWithRetry (c : TranslationCache JSON)
    (language ns : String) (outcomes : Nat → FetchOutcome)
    (retries : Nat) : Option JSON × Nat × TranslationCache JSON :=
  let cacheKey := language ++ "-" ++ ns
  if jsMapHas c.cache cacheKey then
    let hit := c.get cacheKey
    (hit.1, 0, hit.2)
  else
    loadAttempts outcomes cacheKey c 1 retries

/-- The backoff delay of config.ts line 172:
`Math.pow(2, attempt) * 100 + Math.random() * 100`, with `rand` the
value drawn by `Math.random()` (a number in `[0, 1)`).  Embedded over
`ℚ`; the quantities involved are exact multiples of small powers of two
apart from the jitter, which is only ever bounded. -/
def retryDelay (attempt : Nat) (rand : ℚ) : ℚ :=
  2 ^ attempt * 100 + rand * 100

/-! ## Aliasing model for the cache's copy semantics (claim C3)

`set` stores `JSON.parse(JSON.stringify(value))` (config.ts lines
46-52): serialising and re-parsing a dictionary tree produces a fresh
object graph that is value-equal to the input and shares no mutable
cell with it.  To talk about mutation of the caller's object we give
the cache a heap: addresses name whole object graphs, the heap maps an
address to the `JSON` tree currently reachable from it, and mutating an
object rewrites the tree at its address (any in-place update of the
graph, at any depth, is such a rewrite).  The cache proper is the
`TranslationCache` above instantiated with addresses as values. -/

/-- A JS object reference. -/
abbrev Addr := Nat

/-- The heap: each allocated address holds the object graph (as a tree)
reachable from it. -/
abbrev Heap := JSMap Addr JSON

/-- Cache-with-heap state: the translation cache holding references to
stored dictionaries, plus an allocation bound. -/
structure RefCache where
  heap : Heap
  store : TranslationCache Addr
  nextAddr : Addr

/-- All allocated addresses lie below the allocation bound. -/
def RefCache.wf (s : RefCache) : Prop :=
  ∀ p ∈ s.heap, p.1 < s.nextAddr

/-- Embeds `set(key, value)` at heap level: `JSON.parse(JSON.stringify(value))`
reads the caller's tree and allocates a fresh, structurally equal copy
(config.ts lines 46-52); the cache then stores the fresh reference. -/
def RefCache.setClone (s : RefCache) (key : String) (value : Addr) : RefCache :=
  match jsMapGet s.heap value with
  | some tree =>
      { heap := jsMapSet s.heap s.nextAddr tree,
        store := s.store.set key s.nextAddr,
        nextAddr := s.nextAddr + 1 }
  | none => s

/-- Mutate the object at address `a` in place: replace the tree
reachable from `a` by `f` of it (this covers any nested field update). -/
def RefCache.mutate (s : RefCache) (a : Addr) (f : JSON → JSON) : RefCache :=
  match jsMapGet s.heap a with
  | some tree => { s with heap := jsMapSet s.heap a (f tree) }
  | none => s

/-- The dictionary value observed through `get(key)`: follow the cached
reference into the heap. -/
def RefCache.getValue (s : RefCache) (key : String) : Option JSON :=
  match (s.store.get key).1 with
  | some a => jsMapGet s.heap a
  | none => none

/-! ## Completeness checker (src/scripts/check-translations.js)

The script walks `src/locales/<lang>/<ns>.json`.  We model the part of
the file system it reads: the ordered list of language directories
(`readdirSync` order) and, per language, the ordered list of `.json`
namespace files with their contents.  A file is either valid JSON or
unparseable (`JSON.parse` throws). -/

/-- Content of one `<lang>/<ns>.json` file. -/
inductive FileContent where
  | valid (dict : JSON)
  | invalid

/-- The `src/locales` directory as the checker sees it. -/
structure LocalesFS where
  /-- Subdirectories of `src/locales`, in `readdirSync` order
  (check-translations.js lines 24-27). -/
  languages : List String
  /-- Per language, the `.json` files (namespace ↦ content), in
  directory order. -/
  files : JSMap String (JSMap String FileContent)

/-- The namespaces (i.e. `.json` files) present for one language. -/
def langNamespaces (fs : LocalesFS) (lang : String) : List String :=
  ((jsMapGet fs.files lang).getD []).map (fun p => p.1)

/-- Read `<lang>/<ns>.json`; `none` when the file does not exist. -/
def readLocaleFile (fs : LocalesFS) (lang nsName : String) :
    Option FileContent :=
  jsMapGet ((jsMapGet fs.files lang).getD []) nsName

/-- Embeds `Set.prototype.add`: append when not already present (JS sets keep
insertion order). -/
def addUnique (acc : List String) (x : String) : List String :=
  if acc.contains x then acc else acc ++ [x]

/-- Embeds `collectNamespaces` (check-translations.js lines 48-58): the union,
in first-insertion order, of every language's namespace files. -/
def collectNamespaces (fs : LocalesFS) : List String :=
  fs.languages.foldl
    (fun acc lang => (langNamespaces fs lang).foldl addUnique acc) []

/-- One reported issue (the `message` string is a pure formatting of the
other fields and is omitted). -/
structure Issue where
  type : String
  severity : String
  language : String
  ns : String
  key : Option String
deriving DecidableEq

/-- Embeds `checkMissingFiles` (check-translations.js lines 60-83): for every
language, report an error-level `missing-file` issue for every
collected namespace with no file in that language. -/
def checkMissingFiles (fs : LocalesFS) : List Issue :=
  fs.languages.flatMap fun lang =>
    let existingFiles := langNamespaces fs lang
    (collectNamespaces fs).filterMap fun nsName =>
      if existingFiles.contains nsName then none
      else some ⟨"missing-file", "error", lang, nsName, none⟩

/-- The key-diff of one (reference, target) pair of flattened key sets
(check-translations.js lines 112-138): warning-level `missing-key` for
reference keys absent from the target, info-level `extra-key` for
target keys absent from the reference. -/
def keyDiffIssues (refKeys tgtKeys : List String) (lang nsName : String) :
    List Issue :=
  (refKeys.filterMap fun key =>
    if tgtKeys.contains key then none
    else some ⟨"missing-key", "warning", lang, nsName, some key⟩)
  ++ (tgtKeys.filterMap fun key =>
    if refKeys.contains key then none
    else some ⟨"extra-key", "info", lang, nsName, some key⟩)

mutual

/-- Embeds `extractKeys` (check-translations.js lines 159-174): flatten a
dictionary to its dot-separated leaf key paths.  `pre` is the `prefix`
argument of the source. -/
def extractKeys : JSON → String → List String
  | .str _, _ => []
  | .obj fields, pre => extractKeysFields fields pre

/-- The `for (const key in obj)` loop of `extractKeys`: nested objects
recurse with the extended path, other values contribute their full
key. -/
def extractKeysFields : List (String × JSON) → String → List String
  | [], _ => []
  | (key, v) :: rest, pre =>
      let fullKey := if pre = "" then key else pre ++ "." ++ key
      (match v with
       | .obj fields => extractKeysFields fields fullKey
       | .str _ => [fullKey])
      ++ extractKeysFields rest pre

end

/-- The inner `this.languages.slice(1).forEach` body of
`checkMissingKeys` (check-translations.js lines 105-149): diff one
target language against the reference keys for one namespace; a missing
or unparseable target file yields an error-level `invalid-file`
issue. -/
def checkLangNamespace (fs : LocalesFS) (refKeys : List String)
    (nsName lang : String) : List Issue :=
  match readLocaleFile fs lang nsName with
  | some (.valid langContent) =>
      keyDiffIssues refKeys (extractKeys langContent "") lang nsName
  | _ => [⟨"invalid-file", "error", lang, nsName, none⟩]

/-- Embeds `checkMissingKeys` (check-translations.js lines 85-157): the first
language is the reference; with no languages nothing is reported; a
missing or unparseable reference file skips the namespace with a
console warning. -/
def checkMissingKeys (fs : LocalesFS) : List Issue :=
  match fs.languages with
  | [] => []
  | referenceLang :: rest =>
      (collectNamespaces fs).flatMap fun nsName =>
        match readLocaleFile fs referenceLang nsName with
        | some (.valid refContent) =>
            rest.flatMap
              (checkLangNamespace fs (extractKeys refContent "") nsName)
        | _ => []

/-- All issues of one `check()` run, in report order. -/
def checkerIssues (fs : LocalesFS) : List Issue :=
  checkMissingFiles fs ++ checkMissingKeys fs

/-- Number of error-level issues (check-translations.js lines 179-181). -/
def checkerErrorCount (fs : LocalesFS) : Nat :=
  ((checkerIssues fs).filter (fun i => i.severity = "error")).length

/-- The process exit code of `printResults` (check-translations.js
lines 231-234): 1 when any error-level issue exists, 0 otherwise. -/
def checkerExitCode (fs : LocalesFS) : Nat :=
  if 0 < checkerErrorCount fs then 1 else 0

/-! ## The `t` wrapper of `useTranslation` (src/unnamed/part_000)

The wrapper closes over `originalT`, the i18next resolution function
obtained from `useI18nTranslation` (an external library); we abstract
it as a function from the key and the options to the resolved string.
The second parameter of `t` is either an options object or a string
default value. -/

/-- Interpolation options (values reduced to strings; their content is
passed through to `originalT` and never inspected by the wrapper). -/
abbrev TOptions := JSMap String String

/-- The `optionsOrDefault` parameter of `t`. -/
inductive TArg where
  | options (opts : TOptions)
  | str (s : String)

/-- The enhanced `t` (part_000 lines 19-46): a string second argument
is a default value, an object one is the options; when the resolved
translation equals the key (i18next's missing-key result) *and* the
default value is truthy (`translation === key && defaultValue` — the
empty string is falsy), the default value is returned; otherwise the
resolved translation is. -/
def useTranslationT (originalT : String → Option TOptions → String)
    (key : String) (optionsOrDefault : Option TArg) : String :=
  let defaultValue : Option String :=
    match optionsOrDefault with
    | some (.str s) => some s
    | _ => none
  let options : Option TOptions :=
    match optionsOrDefault with
    | some (.options o) => some o
    | _ => none
  let translation := originalT key options
  match defaultValue with
  | some dv => if translation = key ∧ dv ≠ "" then dv else translation
  | none => translation


/-! ## Lemmas about the JS `Map` embedding -/

theorem jsMapHas_eq_true_iff {κ α : Type} [DecidableEq κ] (m : JSMap κ α)
    (k : κ) : jsMapHas m k = true ↔ k ∈ m.map Prod.fst := by
  simp [jsMapHas, List.any_eq_true, List.mem_map]

theorem jsMapHas_eq_false_iff {κ α : Type} [DecidableEq κ] (m : JSMap κ α)
    (k : κ) : jsMapHas m k = false ↔ k ∉ m.map Prod.fst := by
  rw [← jsMapHas_eq_true_iff]
  cases h : jsMapHas m k <;> simp

theorem jsMapSet_cons_ne {κ α : Type} [DecidableEq κ] (p : κ × α)
    (rest : JSMap κ α) (k : κ) (v : α) (hp : p.1 ≠ k) :
    jsMapSet (p :: rest) k v = p :: jsMapSet rest k v := by
  have hhas : jsMapHas (p :: rest) k = jsMapHas rest k := by
    simp [jsMapHas, List.any_cons, hp]
  by_cases hr : jsMapHas rest k = true
  · simp [jsMapSet, hhas, hr, hp]
  · have hr' : jsMapHas rest k = false := by simpa using hr
    simp [jsMapSet, hhas, hr', hp]

theorem jsMapGet_jsMapSet_self {κ α : Type} [DecidableEq κ] (m : JSMap κ α)
    (k : κ) (v : α) : jsMapGet (jsMapSet m k v) k = some v := by
  induction m with
  | nil => simp [jsMapSet, jsMapHas, jsMapGet]
  | cons p rest ih =>
    by_cases hp : p.1 = k
    · have hhas : jsMapHas (p :: rest) k = true := by
        simp [jsMapHas, List.any_cons, hp]
      simp only [jsMapSet, hhas, if_true, List.map_cons, if_pos hp]
      simp [jsMapGet, List.find?_cons]
    · rw [jsMapSet_cons_ne p rest k v hp]
      simpa [jsMapGet, List.find?_cons, hp] using ih

theorem jsMapGet_map_update_ne {κ α : Type} [DecidableEq κ] (m : JSMap κ α)
    (k k' : κ) (v : α) (hne : k' ≠ k) :
    jsMapGet (m.map (fun p => if p.1 = k then (k, v) else p)) k' =
      jsMapGet m k' := by
  induction m with
  | nil => simp
  | cons p rest ih =>
    by_cases hp : p.1 = k
    · have h1 : ¬ ((k : κ) = k') := fun h => hne h.symm
      have h2 : ¬ (p.1 = k') := by rw [hp]; exact h1
      simp only [List.map_cons, if_pos hp, jsMapGet, List.find?_cons] at *
      simp only [h1, h2, decide_False] at *
      exact ih
    · simp only [List.map_cons, if_neg hp, jsMapGet, List.find?_cons] at *
      by_cases hp' : p.1 = k'
      · simp [hp']
      · simp only [hp', decide_False] at *
        exact ih

theorem jsMapGet_jsMapSet_ne {κ α : Type} [DecidableEq κ] (m : JSMap κ α)
    (k k' : κ) (v : α) (hne : k' ≠ k) :
    jsMapGet (jsMapSet m k v) k' = jsMapGet m k' := by
  unfold jsMapSet
  split
  · exact jsMapGet_map_update_ne m k k' v hne
  · unfold jsMapGet
    rw [List.find?_append]
    have : List.find? (fun p => decide (p.1 = k')) [(k, v)] = none := by
      simp [List.find?_cons, Ne.symm hne]
    simp [this]

theorem jsMapGet_eq_none_iff {κ α : Type} [DecidableEq κ] (m : JSMap κ α)
    (k : κ) : jsMapGet m k = none ↔ jsMapHas m k = false := by
  induction m with
  | nil => simp [jsMapGet, jsMapHas]
  | cons p rest ih =>
    by_cases hp : p.1 = k
    · simp [jsMapGet, jsMapHas, List.find?_cons, List.any_cons, hp]
    · simp only [jsMapGet, jsMapHas, List.find?_cons, List.any_cons, hp] at ih ⊢
      simp only [decide_eq_true_eq, hp, if_false, decide_False, Bool.false_or]
      exact ih

theorem jsMapGet_isSome_of_has {κ α : Type} [DecidableEq κ] (m : JSMap κ α)
    (k : κ) (h : jsMapHas m k = true) : ∃ v, jsMapGet m k = some v := by
  cases hg : jsMapGet m k with
  | none => rw [(jsMapGet_eq_none_iff m k).mp hg] at h; cases h
  | some v => exact ⟨v, rfl⟩

theorem jsMapSet_map_fst {κ α : Type} [DecidableEq κ] (m : JSMap κ α)
    (k : κ) (v : α) :
    (jsMapSet m k v).map Prod.fst =
      if jsMapHas m k then m.map Prod.fst else m.map Prod.fst ++ [k] := by
  unfold jsMapSet
  split
  · rw [List.map_map]
    apply List.map_congr_left
    intro p _
    by_cases hp : p.1 = k <;> simp [hp]
  · simp

theorem jsMapSet_length {κ α : Type} [DecidableEq κ] (m : JSMap κ α)
    (k : κ) (v : α) :
    (jsMapSet m k v).length =
      if jsMapHas m k then m.length else m.length + 1 := by
  have := congrArg List.length (jsMapSet_map_fst m k v)
  simp only [List.length_map] at this
  rw [this]
  split <;> simp

theorem jsMapDelete_map_fst {κ α : Type} [DecidableEq κ] (m : JSMap κ α)
    (k : κ) :
    (jsMapDelete m k).map Prod.fst =
      (m.map Prod.fst).filter (fun x => decide (x ≠ k)) := by
  induction m with
  | nil => simp [jsMapDelete]
  | cons p rest ih =>
    by_cases hp : p.1 = k <;>
      simp [jsMapDelete, List.filter_cons, hp, ih] at *
    · exact ih
    · exact ih

theorem jsMapDelete_sublist {κ α : Type} [DecidableEq κ] (m : JSMap κ α)
    (k : κ) : (jsMapDelete m k).Sublist m :=
  List.filter_sublist m

theorem jsMapHas_jsMapDelete_false {κ α : Type} [DecidableEq κ]
    (m : JSMap κ α) (k k' : κ) (h : jsMapHas m k' = false) :
    jsMapHas (jsMapDelete m k) k' = false := by
  rw [jsMapHas_eq_false_iff] at h ⊢
  intro hmem
  exact h (((jsMapDelete_sublist m k).map Prod.fst).mem hmem)

/-! ## Lemmas about `getLRUKey` -/

theorem lruFold_spec :
    ∀ (l : List (String × Nat)) (acc : Option (String × Nat))
      (q : String × Nat), l.foldl lruStep acc = some q →
      (q ∈ l ∨ acc = some q) ∧ (∀ p ∈ l, q.2 ≤ p.2) ∧
        (∀ a, acc = some a → q.2 ≤ a.2) := by
  intro l
  induction l with
  | nil =>
    intro acc q h
    simp only [List.foldl_nil] at h
    refine ⟨Or.inr h, by simp, fun a ha => ?_⟩
    rw [h] at ha
    cases ha
    exact le_refl _
  | cons p rest ih =>
    intro acc q h
    simp only [List.foldl_cons] at h
    obtain ⟨hmem, hmin, hacc⟩ := ih (lruStep acc p) q h
    have hstep : ∀ a, lruStep acc p = some a →
        (a = p ∨ acc = some a) ∧ a.2 ≤ p.2 ∧
          (∀ b, acc = some b → a.2 ≤ b.2) := by
      intro a ha
      cases acc with
      | none =>
        simp only [lruStep] at ha
        cases ha
        exact ⟨Or.inl rfl, le_refl _, fun b hb => by cases hb⟩
      | some b =>
        simp only [lruStep] at ha
        split at ha
        · cases ha
          rename_i hlt
          exact ⟨Or.inl rfl, le_refl _, fun b' hb' => by
            cases hb'; exact le_of_lt hlt⟩
        · cases ha
          rename_i hlt
          exact ⟨Or.inr rfl, le_of_not_lt hlt, fun b' hb' => by
            cases hb'; exact le_refl _⟩
    have hsome : ∃ a, lruStep acc p = some a := by
      cases acc with
      | none => exact ⟨p, rfl⟩
      | some b =>
        simp only [lruStep]
        split
        · exact ⟨p, rfl⟩
        · exact ⟨b, rfl⟩
    obtain ⟨a, ha⟩ := hsome
    obtain ⟨hamem, hap, hab⟩ := hstep a ha
    have hqa : q.2 ≤ a.2 := hacc a ha
    constructor
    · rcases hmem with hq | hq
      · exact Or.inl (List.mem_cons_of_mem p hq)
      · rw [ha] at hq
        cases hq
        rcases hamem with h' | h'
        · exact Or.inl (by rw [h']; exact List.mem_cons_self p rest)
        · exact Or.inr h'
    · refine ⟨fun r hr => ?_, fun b hb => ?_⟩
      · rcases List.mem_cons.mp hr with h' | h'
        · rw [h']; exact le_trans hqa hap
        · exact hmin r h'
      · exact le_trans hqa (hab b hb)

theorem lruFold_isSome :
    ∀ (l : List (String × Nat)) (acc : Option (String × Nat)),
      (l ≠ [] ∨ acc.isSome) → (l.foldl lruStep acc).isSome := by
  intro l
  induction l with
  | nil =>
    intro acc h
    rcases h with h | h
    · cases h rfl
    · simpa using h
  | cons p rest ih =>
    intro acc _
    simp only [List.foldl_cons]
    apply ih
    cases acc with
    | none => right; simp [lruStep]
    | some b =>
      right
      simp only [lruStep]
      split <;> simp

theorem getLRUKey_spec (accessOrder : JSMap String Nat)
    (hne : accessOrder ≠ []) :
    ∃ lru m, getLRUKey accessOrder = some lru ∧ (lru, m) ∈ accessOrder ∧
      ∀ p ∈ accessOrder, m ≤ p.2 := by
  have hsome := lruFold_isSome accessOrder none (Or.inl hne)
  obtain ⟨q, hq⟩ := Option.isSome_iff_exists.mp hsome
  obtain ⟨hmem, hmin, -⟩ := lruFold_spec accessOrder none q hq
  rcases hmem with hmem | hmem
  · exact ⟨q.1, q.2, by simp [getLRUKey, hq], hmem, hmin⟩
  · cases hmem

/-! ## The cache invariant -/

/-- Well-formedness of a cache state, preserved by every operation with
nonempty keys: `cache` and `accessOrder` list the same keys in the same
order, keys are distinct and nonempty, and access counters are distinct
and bounded by the global counter. -/
structure CacheWF {α : Type} (c : TranslationCache α) : Prop where
  keys_eq : c.cache.map Prod.fst = c.accessOrder.map Prod.fst
  keys_nodup : (c.cache.map Prod.fst).Nodup
  counters_nodup : (c.accessOrder.map Prod.snd).Nodup
  counters_le : ∀ p ∈ c.accessOrder, p.2 ≤ c.accessCounter
  keys_ne : ∀ k ∈ c.cache.map Prod.fst, k ≠ ""

theorem jsMapHas_congr {κ α β : Type} [DecidableEq κ] {m₁ : JSMap κ α}
    {m₂ : JSMap κ β} (h : m₁.map Prod.fst = m₂.map Prod.fst) (k : κ) :
    jsMapHas m₁ k = jsMapHas m₂ k := by
  cases h₂ : jsMapHas m₂ k
  · rw [jsMapHas_eq_false_iff] at h₂ ⊢
    rw [h]; exact h₂
  · rw [jsMapHas_eq_true_iff] at h₂ ⊢
    rw [h]; exact h₂

theorem jsMapInPlace_counter_spec (k : String) (A : Nat) :
    ∀ (m : JSMap String Nat), (m.map Prod.fst).Nodup →
      (m.map Prod.snd).Nodup → (∀ p ∈ m, p.2 ≤ A) →
      (((m.map (fun p => if p.1 = k then (k, A + 1) else p)).map
          Prod.snd).Nodup ∧
        ∀ p ∈ m.map (fun p => if p.1 = k then (k, A + 1) else p),
          p.2 ≤ A + 1) := by
  intro m
  induction m with
  | nil => intro _ _ _; simp
  | cons q rest ih =>
    intro hkeys hsnd hle
    rw [List.map_cons, List.nodup_cons] at hkeys
    rw [List.map_cons, List.nodup_cons] at hsnd
    have hqle : q.2 ≤ A := hle q (List.mem_cons_self q rest)
    have hrle : ∀ p ∈ rest, p.2 ≤ A :=
      fun p hp => hle p (List.mem_cons_of_mem q hp)
    by_cases hq : q.1 = k
    · have hrest : rest.map (fun p => if p.1 = k then (k, A + 1) else p) =
          rest := by
        have hid : rest.map (fun p => if p.1 = k then (k, A + 1) else p) =
            rest.map id := by
          apply List.map_congr_left
          intro p hp
          have : p.1 ≠ k := by
            intro hpk
            exact hkeys.1
              (by rw [hq, ← hpk]; exact List.mem_map_of_mem Prod.fst hp)
          simp [this]
        simpa using hid
      constructor
      · rw [List.map_cons, if_pos hq, hrest, List.map_cons, List.nodup_cons]
        refine ⟨fun hmem => ?_, hsnd.2⟩
        obtain ⟨p, hp, hp2⟩ := List.mem_map.mp hmem
        have := hrle p hp
        omega
      · intro p hp
        rw [List.map_cons, if_pos hq, hrest] at hp
        rcases List.mem_cons.mp hp with h' | h'
        · rw [h']
        · have := hrle p h'; omega
    · obtain ⟨ihnodup, ihle⟩ := ih hkeys.2 hsnd.2 hrle
      constructor
      · rw [List.map_cons, if_neg hq, List.map_cons, List.nodup_cons]
        refine ⟨fun hmem => ?_, ihnodup⟩
        obtain ⟨p, hp, hp2⟩ := List.mem_map.mp hmem
        obtain ⟨r, hr, hrp⟩ := List.mem_map.mp hp
        by_cases hr1 : r.1 = k
        · rw [if_pos hr1] at hrp
          rw [← hrp] at hp2
          simp only at hp2
          omega
        · rw [if_neg hr1] at hrp
          apply hsnd.1
          rw [← hp2, ← hrp]
          exact List.mem_map_of_mem Prod.snd hr
      · intro p hp
        rw [List.map_cons, if_neg hq] at hp
        rcases List.mem_cons.mp hp with h' | h'
        · rw [h']; omega
        · exact ihle p h'

theorem jsMapSet_counter_spec (m : JSMap String Nat) (k : String) (A : Nat)
    (hkeys : (m.map Prod.fst).Nodup) (hsnd : (m.map Prod.snd).Nodup)
    (hle : ∀ p ∈ m, p.2 ≤ A) :
    ((jsMapSet m k (A + 1)).map Prod.snd).Nodup ∧
      ∀ p ∈ jsMapSet m k (A + 1), p.2 ≤ A + 1 := by
  unfold jsMapSet
  split
  · exact jsMapInPlace_counter_spec k A m hkeys hsnd hle
  · constructor
    · rw [List.map_append]
      apply List.Nodup.append hsnd (by simp)
      intro x hx hx1
      simp only [List.map_cons, List.map_nil, List.mem_singleton] at hx1
      obtain ⟨p, hp, hp2⟩ := List.mem_map.mp hx
      have := hle p hp
      omega
    · intro p hp
      rcases List.mem_append.mp hp with h' | h'
      · have := hle p h'; omega
      · simp only [List.mem_singleton] at h'
        rw [h']

/-- The common final step of `set`: insert `(key, value)` and the fresh
access counter into a well-formed state. -/
theorem cacheWF_rawset {α : Type} (c : TranslationCache α) (k : String)
    (v : α) (hwf : CacheWF c) (hk : k ≠ "") :
    CacheWF ⟨jsMapSet c.cache k v,
      jsMapSet c.accessOrder k (c.accessCounter + 1),
      c.accessCounter + 1⟩ := by
  have hhas := jsMapHas_congr hwf.keys_eq k
  have hkeysAO : (c.accessOrder.map Prod.fst).Nodup := by
    rw [← hwf.keys_eq]; exact hwf.keys_nodup
  obtain ⟨hcn, hcl⟩ := jsMapSet_counter_spec c.accessOrder k c.accessCounter
    hkeysAO hwf.counters_nodup hwf.counters_le
  constructor
  · rw [jsMapSet_map_fst, jsMapSet_map_fst, hhas, hwf.keys_eq]
  · rw [jsMapSet_map_fst]
    split
    · exact hwf.keys_nodup
    · rename_i h
      rw [Bool.not_eq_true] at h
      rw [jsMapHas_eq_false_iff] at h
      exact List.Nodup.append hwf.keys_nodup (by simp)
        (by intro x hx hx1
            simp only [List.mem_singleton] at hx1
            rw [hx1] at hx
            exact h hx)
  · exact hcn
  · exact hcl
  · rw [jsMapSet_map_fst]
    split
    · exact hwf.keys_ne
    · intro x hx
      rcases List.mem_append.mp hx with h' | h'
      · exact hwf.keys_ne x h'
      · simp only [List.mem_singleton] at h'
        rw [h']; exact hk

/-- Eviction preserves well-formedness. -/
theorem cacheWF_delete {α : Type} (c : TranslationCache α) (lru : String)
    (hwf : CacheWF c) :
    CacheWF ⟨jsMapDelete c.cache lru, jsMapDelete c.accessOrder lru,
      c.accessCounter⟩ := by
  constructor
  · rw [jsMapDelete_map_fst, jsMapDelete_map_fst, hwf.keys_eq]
  · rw [jsMapDelete_map_fst]
    exact ((List.filter_sublist _).nodup) hwf.keys_nodup
  · exact (((jsMapDelete_sublist c.accessOrder lru).map Prod.snd).nodup)
      hwf.counters_nodup
  · intro p hp
    exact hwf.counters_le p ((jsMapDelete_sublist c.accessOrder lru).mem hp)
  · rw [jsMapDelete_map_fst]
    intro x hx
    exact hwf.keys_ne x ((List.filter_sublist _).mem hx)

theorem filter_ne_eq_erase {κ : Type} [DecidableEq κ] (l : List κ) (a : κ)
    (hnd : l.Nodup) :
    l.filter (fun x => decide (x ≠ a)) = l.erase a := by
  rw [List.Nodup.erase_eq_filter hnd a]
  apply List.filter_congr
  intro x _
  by_cases h : x = a
  · simp [h, bne]
  · simp [h, bne]

theorem filter_ne_length {κ : Type} [DecidableEq κ] (l : List κ) (a : κ)
    (hnd : l.Nodup) (ha : a ∈ l) :
    (l.filter (fun x => decide (x ≠ a))).length + 1 = l.length := by
  rw [filter_ne_eq_erase l a hnd, List.length_erase_of_mem ha]
  have : l.length ≠ 0 := by
    intro h0
    rw [List.length_eq_zero] at h0
    rw [h0] at ha
    cases ha
  omega

/-- On a full cache and a new key, `set` evicts the entry whose access
counter `getLRUKey` selects, then inserts. -/
theorem set_evict_spec {α : Type} (c : TranslationCache α) (k : String)
    (v : α) (hwf : CacheWF c) (hfull : cacheMaxSize ≤ c.cache.length)
    (hnew : jsMapHas c.cache k = false) :
    ∃ lru macc, getLRUKey c.accessOrder = some lru ∧
      (lru, macc) ∈ c.accessOrder ∧ (∀ p ∈ c.accessOrder, macc ≤ p.2) ∧
      lru ≠ "" ∧
      c.set k v = ⟨jsMapSet (jsMapDelete c.cache lru) k v,
        jsMapSet (jsMapDelete c.accessOrder lru) k (c.accessCounter + 1),
        c.accessCounter + 1⟩ := by
  have hao_ne : c.accessOrder ≠ [] := by
    intro h0
    have := hwf.keys_eq
    rw [h0] at this
    simp only [List.map_nil, List.map_eq_nil_iff] at this
    rw [this] at hfull
    simp [cacheMaxSize] at hfull
  obtain ⟨lru, macc, hlru, hmem, hmin⟩ := getLRUKey_spec c.accessOrder hao_ne
  have hlru_key : lru ∈ c.cache.map Prod.fst := by
    rw [hwf.keys_eq]
    exact List.mem_map_of_mem Prod.fst hmem
  have hlrune : lru ≠ "" := hwf.keys_ne lru hlru_key
  refine ⟨lru, macc, hlru, hmem, hmin, hlrune, ?_⟩
  rw [TranslationCache.set]
  rw [if_pos ⟨hfull, hnew⟩, hlru]
  simp [hlrune]

/-- On a non-full cache or an existing key, `set` skips eviction. -/
theorem set_noevict_spec {α : Type} (c : TranslationCache α) (k : String)
    (v : α) (h : ¬(cacheMaxSize ≤ c.cache.length ∧ jsMapHas c.cache k = false)) :
    c.set k v = ⟨jsMapSet c.cache k v,
      jsMapSet c.accessOrder k (c.accessCounter + 1),
      c.accessCounter + 1⟩ := by
  rw [TranslationCache.set]
  rw [if_neg h]

theorem cacheWF_applyOp {α : Type} (c : TranslationCache α) (op : CacheOp α)
    (hwf : CacheWF c) (hlen : c.cache.length ≤ cacheMaxSize)
    (hop : op.keyOk = true) :
    CacheWF (applyOp c op) ∧ (applyOp c op).cache.length ≤ cacheMaxSize := by
  cases op with
  | clear =>
    refine ⟨⟨?_, ?_, ?_, ?_, ?_⟩, ?_⟩ <;>
      simp [applyOp, TranslationCache.clearOp, cacheMaxSize]
  | get k =>
    simp only [applyOp, TranslationCache.get]
    split
    · rename_i hhas
      have hhasAO : jsMapHas c.accessOrder k = true := by
        rw [← jsMapHas_congr hwf.keys_eq k]; exact hhas
      have hkeysAO : (c.accessOrder.map Prod.fst).Nodup := by
        rw [← hwf.keys_eq]; exact hwf.keys_nodup
      obtain ⟨hcn, hcl⟩ := jsMapSet_counter_spec c.accessOrder k
        c.accessCounter hkeysAO hwf.counters_nodup hwf.counters_le
      refine ⟨⟨?_, hwf.keys_nodup, hcn, hcl, hwf.keys_ne⟩, hlen⟩
      rw [jsMapSet_map_fst, hhasAO, if_pos rfl]
      exact hwf.keys_eq
    · exact ⟨hwf, hlen⟩
  | set k v =>
    have hkne : k ≠ "" := by simpa [CacheOp.keyOk] using hop
    simp only [applyOp]
    by_cases hP : cacheMaxSize ≤ c.cache.length ∧ jsMapHas c.cache k = false
    · obtain ⟨lru, macc, _, hmem, _, _, hset⟩ :=
        set_evict_spec c k v hwf hP.1 hP.2
      rw [hset]
      have hdel : CacheWF (⟨jsMapDelete c.cache lru,
          jsMapDelete c.accessOrder lru, c.accessCounter⟩ :
            TranslationCache α) :=
        cacheWF_delete c lru hwf
      have hnewdel : jsMapHas (jsMapDelete c.cache lru) k = false :=
        jsMapHas_jsMapDelete_false c.cache lru k hP.2
      have hWFfinal := cacheWF_rawset
        ⟨jsMapDelete c.cache lru, jsMapDelete c.accessOrder lru,
          c.accessCounter⟩ k v hdel hkne
      refine ⟨hWFfinal, ?_⟩
      have hlen1 : (jsMapDelete c.cache lru).length + 1 = c.cache.length := by
        have hcnt : (jsMapDelete c.cache lru).length =
            ((jsMapDelete c.cache lru).map Prod.fst).length := by
          rw [List.length_map]
        rw [hcnt, jsMapDelete_map_fst]
        have hlrumem : lru ∈ c.cache.map Prod.fst := by
          rw [hwf.keys_eq]; exact List.mem_map_of_mem Prod.fst hmem
        have := filter_ne_length (c.cache.map Prod.fst) lru hwf.keys_nodup
          hlrumem
        rw [List.length_map] at this
        omega
      rw [jsMapSet_length, hnewdel, if_neg (by simp)]
      omega
    · rw [set_noevict_spec c k v hP]
      refine ⟨cacheWF_rawset c k v hwf hkne, ?_⟩
      rw [jsMapSet_length]
      split
      · exact hlen
      · rename_i hh
        rw [Bool.not_eq_true] at hh
        have : ¬ (cacheMaxSize ≤ c.cache.length) := fun hc => hP ⟨hc, hh⟩
        omega

theorem cacheWF_applyOps {α : Type} (ops : List (CacheOp α)) :
    ∀ c : TranslationCache α, CacheWF c →
      c.cache.length ≤ cacheMaxSize →
      ops.all CacheOp.keyOk = true →
      CacheWF (applyOps c ops) ∧
        (applyOps c ops).cache.length ≤ cacheMaxSize := by
  induction ops with
  | nil => intro c hwf hlen _; exact ⟨hwf, hlen⟩
  | cons op rest ih =>
    intro c hwf hlen hall
    rw [List.all_cons, Bool.and_eq_true] at hall
    obtain ⟨hwf', hlen'⟩ := cacheWF_applyOp c op hwf hlen hall.1
    exact ih (applyOp c op) hwf' hlen' hall.2

theorem cacheWF_empty {α : Type} : CacheWF (cacheEmpty (α := α)) := by
  constructor <;> simp [cacheEmpty]

/-! ## Claim C1: capacity bound and LRU eviction -/

/-- Strict minimality of the evicted entry's counter among all other
entries, from distinctness of the counters. -/
theorem lru_strict_min {α : Type} (c : TranslationCache α) (hwf : CacheWF c)
    (lru : String) (macc : Nat) (hmem : (lru, macc) ∈ c.accessOrder)
    (hmin : ∀ p ∈ c.accessOrder, macc ≤ p.2) :
    ∀ p ∈ c.accessOrder, p.1 ≠ lru → macc < p.2 := by
  intro p hp hne
  rcases lt_or_eq_of_le (hmin p hp) with h | h
  · exact h
  · exfalso
    have := List.inj_on_of_nodup_map hwf.counters_nodup hp hmem h.symm
    rw [this] at hne
    exact hne rfl

/-- The operation sequence refuting the literal capacity claim: fill
the cache with 50 entries the first of which has the empty-string key,
then insert one more new key.  `getLRUKey` selects the empty-string
entry (smallest counter), the JS guard `if (lruKey)` treats it as
falsy, eviction is skipped, and the cache grows to 51 entries. -/
def c1CexOps : List (CacheOp JSON) :=
  ((List.range 50).map fun i =>
    CacheOp.set (if i = 0 then "" else toString i) (JSON.str "x"))
    ++ [CacheOp.set "overflow" (JSON.str "x")]

/-- Fifty `set` operations with distinct nonempty keys, for the witness
below. -/
def c1WitnessOps : List (CacheOp JSON) :=
  (List.range 50).map fun i => CacheOp.set (toString (i + 1)) (JSON.str "x")

set_option maxRecDepth 4000 in
/-- Claim **C1, counterexample**: the claim "the number of cached entries never
exceeds the capacity of 50" is false as stated: after `c1CexOps` (51
`set` operations, one key being the empty string) the cache holds 51
entries. -/
theorem claim_C1_counterexample :
    cacheMaxSize < (applyOps cacheEmpty c1CexOps).cache.length := by decide

/-- Claim **C1 (amended)**: for every sequence of `get`/`set`/`clear`
operations from the empty cache *whose keys are all nonempty*, the
cache never holds more than 50 entries; and whenever a `set` with a new
key occurs while the cache holds at least 50 entries, `set` removes
exactly the entry whose access counter is strictly smallest at that
moment (and then inserts the new key).  The nonemptiness restriction is
forced by `claim_C1_counterexample`: the JS guard `if (lruKey)` treats
an empty-string LRU key as falsy and skips eviction. -/
theorem claim_C1_lru_invariant (ops : List (CacheOp JSON))
    (hkeys : ops.all CacheOp.keyOk = true) :
    (applyOps cacheEmpty ops).cache.length ≤ cacheMaxSize ∧
    ∀ key v, jsMapHas (applyOps cacheEmpty ops).cache key = false →
      cacheMaxSize ≤ (applyOps cacheEmpty ops).cache.length →
      ∃ lru macc,
        getLRUKey (applyOps cacheEmpty ops).accessOrder = some lru ∧
        (lru, macc) ∈ (applyOps cacheEmpty ops).accessOrder ∧
        (∀ p ∈ (applyOps cacheEmpty ops).accessOrder,
          p.1 ≠ lru → macc < p.2) ∧
        ((applyOps cacheEmpty ops).set key v).cache.map Prod.fst =
          (((applyOps cacheEmpty ops).cache.map Prod.fst).erase lru)
            ++ [key] := by
  obtain ⟨hwf, hlen⟩ := cacheWF_applyOps ops cacheEmpty cacheWF_empty
    (by simp [cacheEmpty, cacheMaxSize]) hkeys
  refine ⟨hlen, ?_⟩
  intro key v hnew hfull
  obtain ⟨lru, macc, hlru, hmem, hmin, hlrune, hset⟩ :=
    set_evict_spec (applyOps cacheEmpty ops) key v hwf hfull hnew
  refine ⟨lru, macc, hlru, hmem,
    lru_strict_min (applyOps cacheEmpty ops) hwf lru macc hmem hmin, ?_⟩
  rw [hset]
  simp only
  rw [jsMapSet_map_fst, jsMapHas_jsMapDelete_false _ lru key hnew,
    if_neg (by simp), jsMapDelete_map_fst,
    filter_ne_eq_erase _ lru hwf.keys_nodup]

set_option maxRecDepth 4000 in
/-- Claim **C1, witness**: the amended invariant applied to a concrete run of
fifty inserts with distinct nonempty keys and a fresh 51st key. -/
theorem claim_C1_lru_invariant_witness :
    c1WitnessOps.all CacheOp.keyOk = true ∧
    jsMapHas (applyOps cacheEmpty c1WitnessOps).cache "fresh" = false ∧
    cacheMaxSize ≤ (applyOps cacheEmpty c1WitnessOps).cache.length ∧
    (∃ lru macc,
      getLRUKey (applyOps cacheEmpty c1WitnessOps).accessOrder = some lru ∧
      (lru, macc) ∈ (applyOps cacheEmpty c1WitnessOps).accessOrder ∧
      (∀ p ∈ (applyOps cacheEmpty c1WitnessOps).accessOrder,
        p.1 ≠ lru → macc < p.2) ∧
      ((applyOps cacheEmpty c1WitnessOps).set "fresh"
          (JSON.str "x")).cache.map Prod.fst =
        (((applyOps cacheEmpty c1WitnessOps).cache.map Prod.fst).erase lru)
          ++ ["fresh"]) :=
  ⟨by decide, by decide, by decide,
    (claim_C1_lru_invariant c1WitnessOps (by decide)).2 "fresh"
      (JSON.str "x") (by decide) (by decide)⟩

/-! ## Claim C9: `get` on a missing key -/

/-- Claim **C9**: for every cache state and every key not in the cache,
`get` returns the miss result — the literal `null` of config.ts line
33, embedded as `none` — and the state (entries, access order, access
counter) is returned exactly unchanged; the access counter is bumped
only on the hit path. -/
theorem claim_C9_get_miss_frame {α : Type} (c : TranslationCache α)
    (key : String) (hmiss : jsMapHas c.cache key = false) :
    c.get key = (none, c) := by
  unfold TranslationCache.get
  rw [hmiss]
  rfl

/-- Claim **C9, witness**: a concrete one-entry cache and a missing key. -/
theorem claim_C9_get_miss_frame_witness :
    jsMapHas (⟨[("it-common", JSON.str "x")], [("it-common", 1)], 1⟩ :
      TranslationCache JSON).cache "en-auth" = false ∧
    (⟨[("it-common", JSON.str "x")], [("it-common", 1)], 1⟩ :
      TranslationCache JSON).get "en-auth" =
      (none, ⟨[("it-common", JSON.str "x")], [("it-common", 1)], 1⟩) :=
  ⟨by decide, claim_C9_get_miss_frame _ "en-auth" (by decide)⟩

/-! ## Claim C3: copy semantics of `set` -/

theorem jsMapGet_mem {κ α : Type} [DecidableEq κ] (m : JSMap κ α) (k : κ)
    (v : α) (h : jsMapGet m k = some v) : (k, v) ∈ m := by
  unfold jsMapGet at h
  cases hf : m.find? (fun p => decide (p.1 = k)) with
  | none => rw [hf] at h; cases h
  | some p =>
    rw [hf] at h
    simp only [Option.map_some'] at h
    have hbv := Option.some_inj.mp h
    have hmem := List.mem_of_find?_eq_some hf
    have hpk := List.find?_some hf
    simp only [decide_eq_true_eq] at hpk
    obtain ⟨a, b⟩ := p
    simp only at hpk hbv
    rw [← hpk, ← hbv]
    exact hmem

/-- The cache slot written by `set` is read back by a subsequent
lookup of the same key. -/
theorem set_cache_exists {α : Type} (c : TranslationCache α) (k : String)
    (v : α) : ∃ m, (c.set k v).cache = jsMapSet m k v := by
  rw [TranslationCache.set]
  exact ⟨_, rfl⟩

theorem jsMapHas_jsMapSet_self {κ α : Type} [DecidableEq κ] (m : JSMap κ α)
    (k : κ) (v : α) : jsMapHas (jsMapSet m k v) k = true := by
  rw [jsMapHas_eq_true_iff, jsMapSet_map_fst]
  split
  · rename_i h
    rw [jsMapHas_eq_true_iff] at h
    exact h
  · exact List.mem_append.mpr (Or.inr (by simp))

theorem get_fst_after_set {α : Type} (c : TranslationCache α) (k : String)
    (v : α) : ((c.set k v).get k).1 = some v := by
  obtain ⟨m, hm⟩ := set_cache_exists c k v
  have hhas : jsMapHas (c.set k v).cache k = true := by
    rw [hm]; exact jsMapHas_jsMapSet_self m k v
  unfold TranslationCache.get
  rw [hhas]
  simp only [if_true]
  rw [hm, jsMapGet_jsMapSet_self]

/-- Claim **C3**: `set` stores a deep, structurally independent copy.  In the
heap model of `RefCache`, storing the object at `value` and then
mutating that object in place — in any way, at any depth — leaves the
value a subsequent `get` of the key observes equal to the tree the
caller's object held at `set` time. -/
theorem claim_C3_copy_semantics (s : RefCache) (hwf : s.wf) (key : String)
    (value : Addr) (tree : JSON) (hv : jsMapGet s.heap value = some tree)
    (f : JSON → JSON) :
    ((s.setClone key value).mutate value f).getValue key = some tree ∧
    (s.setClone key value).getValue key = some tree := by
  have hlt : value < s.nextAddr := hwf (value, tree) (jsMapGet_mem _ _ _ hv)
  have hne : value ≠ s.nextAddr := Nat.ne_of_lt hlt
  have hclone : s.setClone key value =
      { heap := jsMapSet s.heap s.nextAddr tree,
        store := s.store.set key s.nextAddr,
        nextAddr := s.nextAddr + 1 } := by
    unfold RefCache.setClone
    rw [hv]
  have hget : ((s.store.set key s.nextAddr).get key).1 = some s.nextAddr :=
    get_fst_after_set s.store key s.nextAddr
  have hheap1 : jsMapGet (jsMapSet s.heap s.nextAddr tree) value =
      some tree := by
    rw [jsMapGet_jsMapSet_ne s.heap s.nextAddr value tree hne]
    exact hv
  have hheapnext : jsMapGet (jsMapSet s.heap s.nextAddr tree) s.nextAddr =
      some tree := jsMapGet_jsMapSet_self s.heap s.nextAddr tree
  constructor
  · rw [hclone]
    unfold RefCache.mutate
    simp only [hheap1]
    unfold RefCache.getValue
    simp only [hget]
    rw [jsMapGet_jsMapSet_ne _ value s.nextAddr (f tree) (Ne.symm hne)]
    exact hheapnext
  · rw [hclone]
    unfold RefCache.getValue
    simp only [hget]
    exact hheapnext

/-- Claim **C3, witness**: a heap with one caller-held object, stored under a
key and then mutated. -/
theorem claim_C3_copy_semantics_witness :
    (⟨[(0, JSON.str "orig")], cacheEmpty, 1⟩ : RefCache).wf ∧
    jsMapGet (⟨[(0, JSON.str "orig")], cacheEmpty, 1⟩ : RefCache).heap 0 =
      some (JSON.str "orig") ∧
    (((⟨[(0, JSON.str "orig")], cacheEmpty, 1⟩ : RefCache).setClone
        "it-common" 0).mutate 0 (fun _ => JSON.str "mutated")).getValue
      "it-common" = some (JSON.str "orig") :=
  ⟨by unfold RefCache.wf; decide, by decide,
    (claim_C3_copy_semantics _ (by unfold RefCache.wf; decide) "it-common" 0
      (JSON.str "orig") (by decide) (fun _ => JSON.str "mutated")).1⟩

/-! ## Claims C2 and C5: the retry loop -/

theorem loadAttempts_spec (outcomes : Nat → FetchOutcome) (key : String)
    (c : TranslationCache JSON) :
    ∀ fuel attempt,
      (loadAttempts outcomes key c attempt fuel).2.1 ≤ fuel ∧
      (1 ≤ fuel → (loadAttempts outcomes key c attempt fuel).1 ≠ none) ∧
      ((∀ i, attempt ≤ i → i < attempt + fuel →
          (outcomes i).isFailure = true) → 1 ≤ fuel →
        loadAttempts outcomes key c attempt fuel =
          (some (JSON.obj []), fuel, c)) := by
  intro fuel
  induction fuel with
  | zero =>
    intro attempt
    refine ⟨Nat.le_refl 0, fun h => absurd h (by omega), fun _ h => ?_⟩
    exact absurd h (by omega)
  | succ fuel ih =>
    intro attempt
    cases hao : attemptFetch (outcomes attempt) with
    | ok d =>
      refine ⟨?_, ?_, ?_⟩
      · simp only [loadAttempts, hao]
        omega
      · intro _
        simp only [loadAttempts, hao]
        simp
      · intro hall _
        exfalso
        have hfail := hall attempt (Nat.le_refl attempt) (by omega)
        unfold FetchOutcome.isFailure at hfail
        rw [hao] at hfail
        cases hfail
    | error e =>
      by_cases hf : fuel = 0
      · subst hf
        refine ⟨?_, ?_, ?_⟩
        · simp only [loadAttempts, hao]; simp
        · intro _
          simp only [loadAttempts, hao]
          simp
        · intro _ _
          simp only [loadAttempts, hao]
          simp
      · obtain ⟨ih1, ih2, ih3⟩ := ih (attempt + 1)
        refine ⟨?_, ?_, ?_⟩
        · simp only [loadAttempts, hao, if_neg hf]
          omega
        · intro _
          simp only [loadAttempts, hao, if_neg hf]
          exact ih2 (by omega)
        · intro hall _
          have hall' : ∀ i, attempt + 1 ≤ i → i < attempt + 1 + fuel →
              (outcomes i).isFailure = true := by
            intro i h1 h2
            exact hall i (by omega) (by omega)
          have := ih3 hall' (by omega)
          simp only [loadAttempts, hao, if_neg hf, this]

/-- The retry loop either succeeds on some attempt — returning the
fetched dictionary and storing it — or leaves the cache untouched. -/
theorem loadAttempts_cases (outcomes : Nat → FetchOutcome) (key : String)
    (c : TranslationCache JSON) :
    ∀ fuel attempt,
      (∃ d, (loadAttempts outcomes key c attempt fuel).1 = some d ∧
        (loadAttempts outcomes key c attempt fuel).2.2 = c.set key d) ∨
      ((loadAttempts outcomes key c attempt fuel).2.2 = c ∧
        ((loadAttempts outcomes key c attempt fuel).1 = none ∨
          (loadAttempts outcomes key c attempt fuel).1 =
            some (JSON.obj []))) := by
  intro fuel
  induction fuel with
  | zero =>
    intro attempt
    exact Or.inr ⟨rfl, Or.inl rfl⟩
  | succ fuel ih =>
    intro attempt
    cases hao : attemptFetch (outcomes attempt) with
    | ok d =>
      left
      exact ⟨d, by simp only [loadAttempts, hao], by simp only [loadAttempts, hao]⟩
    | error e =>
      by_cases hf : fuel = 0
      · subst hf
        right
        constructor
        · simp only [loadAttempts, hao]; rfl
        · right; simp only [loadAttempts, hao]; rfl
      · rcases ih (attempt + 1) with ⟨d, hd1, hd2⟩ | ⟨h1, h2⟩
        · left
          exact ⟨d, by simp only [loadAttempts, hao, if_neg hf]; exact hd1,
            by simp only [loadAttempts, hao, if_neg hf]; exact hd2⟩
        · right
          refine ⟨by simp only [loadAttempts, hao, if_neg hf]; exact h1, ?_⟩
          rcases h2 with h2 | h2
          · left; simp only [loadAttempts, hao, if_neg hf]; exact h2
          · right; simp only [loadAttempts, hao, if_neg hf]; exact h2

/-- A first attempt that does not fail ends the loop after exactly one
fetch. -/
theorem loadAttempts_first_ok (outcomes : Nat → FetchOutcome) (key : String)
    (c : TranslationCache JSON) (fuel attempt : Nat)
    (hok : (outcomes attempt).isFailure = false) :
    (loadAttempts outcomes key c attempt (fuel + 1)).2.1 = 1 := by
  cases hao : attemptFetch (outcomes attempt) with
  | ok d => simp only [loadAttempts, hao]
  | error e =>
    exfalso
    unfold FetchOutcome.isFailure at hok
    rw [hao] at hok
    cases hok

/-- Claim **C2**: with the default configuration (3 retries), for every
(language, namespace) pair, every starting cache state and every
combination of fetch outcomes, `loadTranslationWithRetry` performs at
most 3 fetch attempts and always produces a dictionary (it never
reaches the implicit-`undefined` exit and never propagates an
exception: every thrown error is consumed by the loop's `catch`);
and on a cache miss where all three attempts fail it returns the empty
dictionary `{}` and leaves the cache unchanged. -/
theorem claim_C2_retry_bound (language ns : String)
    (outcomes : Nat → FetchOutcome) (c : TranslationCache JSON) :
    (loadTranslationWithRetry c language ns outcomes 3).2.1 ≤ 3 ∧
    (loadTranslationWithRetry c language ns outcomes 3).1 ≠ none ∧
    (jsMapHas c.cache (language ++ "-" ++ ns) = false →
      (∀ i, 1 ≤ i → i ≤ 3 → (outcomes i).isFailure = true) →
      loadTranslationWithRetry c language ns outcomes 3 =
        (some (JSON.obj []), 3, c)) := by
  obtain ⟨h1, h2, h3⟩ :=
    loadAttempts_spec outcomes (language ++ "-" ++ ns) c 3 1
  by_cases hhit : jsMapHas c.cache (language ++ "-" ++ ns) = true
  · refine ⟨?_, ?_, ?_⟩
    · simp only [loadTranslationWithRetry, hhit, if_true]
      omega
    · simp only [loadTranslationWithRetry, hhit, if_true]
      obtain ⟨v, hv⟩ :=
        jsMapGet_isSome_of_has c.cache (language ++ "-" ++ ns) hhit
      unfold TranslationCache.get
      rw [hhit]
      simp [hv]
    · intro hmiss _
      rw [hmiss] at hhit
      cases hhit
  · have hmiss : jsMapHas c.cache (language ++ "-" ++ ns) = false := by
      simpa using hhit
    refine ⟨?_, ?_, ?_⟩
    · simp only [loadTranslationWithRetry, hmiss]
      simpa using h1
    · simp only [loadTranslationWithRetry, hmiss]
      simpa using h2 (by omega)
    · intro _ hall
      have hall' : ∀ i, 1 ≤ i → i < 1 + 3 → (outcomes i).isFailure = true :=
        fun i hi1 hi2 => hall i hi1 (by omega)
      simp only [loadTranslationWithRetry, hmiss]
      simpa using h3 hall' (by omega)

/-- Claim **C2, witness**: the empty cache and three straight transport
failures. -/
theorem claim_C2_retry_bound_witness :
    jsMapHas (cacheEmpty (α := JSON)).cache ("it" ++ "-" ++ "common") =
      false ∧
    loadTranslationWithRetry cacheEmpty "it" "common"
      (fun _ => FetchOutcome.netError) 3 =
      (some (JSON.obj []), 3, cacheEmpty) :=
  ⟨by decide,
    (claim_C2_retry_bound "it" "common" (fun _ => FetchOutcome.netError)
      cacheEmpty).2.2 (by decide) (fun i _ _ => by decide)⟩

/-- Fetch outcomes whose first attempt fails and whose later attempts
succeed, for the C5 counterexample. -/
def c5Outcomes : Nat → FetchOutcome := fun n =>
  if n = 1 then FetchOutcome.netError
  else FetchOutcome.ok (JSON.obj [("k", JSON.str "v")])

/-- Claim **C5, counterexample**: the claim "across the two calls exactly one
network request is issued" fails when the first call succeeds only on
its second attempt: the first call issues 2 fetches (and stores the
dictionary), the second call is a pure cache hit with 0 fetches, so the
two calls together issue 2 requests, not 1. -/
theorem claim_C5_counterexample :
    (loadTranslationWithRetry cacheEmpty "it" "common" c5Outcomes 3).1 =
      some (JSON.obj [("k", JSON.str "v")]) ∧
    jsMapHas ((loadTranslationWithRetry cacheEmpty "it" "common"
        c5Outcomes 3).2.2).cache ("it" ++ "-" ++ "common") = true ∧
    (loadTranslationWithRetry cacheEmpty "it" "common" c5Outcomes 3).2.1 +
      (loadTranslationWithRetry
        ((loadTranslationWithRetry cacheEmpty "it" "common"
          c5Outcomes 3).2.2) "it" "common" c5Outcomes 3).2.1 = 2 := by
  decide

/-- A call on a cache that holds the key is a pure hit: zero fetches,
the cached value returned. -/
theorem load_cache_hit (language ns : String) (c : TranslationCache JSON)
    (o : Nat → FetchOutcome)
    (h : jsMapHas c.cache (language ++ "-" ++ ns) = true) :
    (loadTranslationWithRetry c language ns o 3).2.1 = 0 ∧
    (loadTranslationWithRetry c language ns o 3).1 =
      jsMapGet c.cache (language ++ "-" ++ ns) := by
  constructor
  · simp only [loadTranslationWithRetry, h, if_true]
  · simp only [loadTranslationWithRetry, h, if_true]
    unfold TranslationCache.get
    rw [h]
    rfl

/-- Claim **C5 (amended)**: if a call to `loadTranslationWithRetry` produced
a dictionary that is now stored in the cache, then a second call for
the same pair performs zero network attempts and returns that same
dictionary; the total number of requests across the two calls is the
number of attempts of the first call — which is exactly one when the
first call started from a cache miss and its first fetch succeeded
(succeeding on a retry issues more than one request, see
`claim_C5_counterexample`). -/
theorem claim_C5_cache_idempotence (language ns : String)
    (c : TranslationCache JSON) (o1 o2 : Nat → FetchOutcome) (d : JSON)
    (hfirst : (loadTranslationWithRetry c language ns o1 3).1 = some d)
    (hstored : jsMapHas
        ((loadTranslationWithRetry c language ns o1 3).2.2).cache
        (language ++ "-" ++ ns) = true) :
    (loadTranslationWithRetry
        ((loadTranslationWithRetry c language ns o1 3).2.2)
        language ns o2 3).2.1 = 0 ∧
    (loadTranslationWithRetry
        ((loadTranslationWithRetry c language ns o1 3).2.2)
        language ns o2 3).1 = some d ∧
    (jsMapHas c.cache (language ++ "-" ++ ns) = false →
      (o1 1).isFailure = false →
      (loadTranslationWithRetry c language ns o1 3).2.1 +
        (loadTranslationWithRetry
          ((loadTranslationWithRetry c language ns o1 3).2.2)
          language ns o2 3).2.1 = 1) := by
  have hkeyget : jsMapGet
      ((loadTranslationWithRetry c language ns o1 3).2.2).cache
      (language ++ "-" ++ ns) = some d := by
    by_cases hc : jsMapHas c.cache (language ++ "-" ++ ns) = true
    · simp only [loadTranslationWithRetry, hc, if_true] at hfirst ⊢
      unfold TranslationCache.get at hfirst ⊢
      rw [hc] at hfirst ⊢
      simp only [if_true] at hfirst ⊢
      exact hfirst
    · have hm : jsMapHas c.cache (language ++ "-" ++ ns) = false := by
        simpa using hc
      simp only [loadTranslationWithRetry, hm] at hfirst hstored ⊢
      simp only [Bool.false_eq_true, if_false] at hfirst hstored ⊢
      rcases loadAttempts_cases o1 (language ++ "-" ++ ns) c 3 1 with
        ⟨d', hd1, hd2⟩ | ⟨h1, _⟩
      · rw [hfirst] at hd1
        have hdd : d' = d := (Option.some_inj.mp hd1).symm
        rw [hd2, hdd]
        obtain ⟨m, hmset⟩ := set_cache_exists c (language ++ "-" ++ ns) d
        rw [hmset]
        exact jsMapGet_jsMapSet_self m (language ++ "-" ++ ns) d
      · rw [h1] at hstored
        rw [hstored] at hm
        cases hm
  obtain ⟨hz, hg⟩ := load_cache_hit language ns
    ((loadTranslationWithRetry c language ns o1 3).2.2) o2 hstored
  refine ⟨hz, by rw [hg]; exact hkeyget, ?_⟩
  intro hmiss hok
  have hone : (loadTranslationWithRetry c language ns o1 3).2.1 = 1 := by
    simp only [loadTranslationWithRetry, hmiss]
    simp only [Bool.false_eq_true, if_false]
    exact loadAttempts_first_ok o1 (language ++ "-" ++ ns) c 2 1 hok
  omega

/-- Claim **C5, witness**: a first call from the empty cache succeeding on
its first attempt, then a second call: one request in total. -/
theorem claim_C5_cache_idempotence_witness :
    (loadTranslationWithRetry cacheEmpty "it" "common"
        (fun _ => FetchOutcome.ok (JSON.obj [("k", JSON.str "v")])) 3).1 =
      some (JSON.obj [("k", JSON.str "v")]) ∧
    (loadTranslationWithRetry
        ((loadTranslationWithRetry cacheEmpty "it" "common"
          (fun _ => FetchOutcome.ok (JSON.obj [("k", JSON.str "v")])) 3).2.2)
        "it" "common" (fun _ => FetchOutcome.netError) 3).2.1 = 0 ∧
    (loadTranslationWithRetry
        ((loadTranslationWithRetry cacheEmpty "it" "common"
          (fun _ => FetchOutcome.ok (JSON.obj [("k", JSON.str "v")])) 3).2.2)
        "it" "common" (fun _ => FetchOutcome.netError) 3).1 =
      some (JSON.obj [("k", JSON.str "v")]) ∧
    (loadTranslationWithRetry cacheEmpty "it" "common"
        (fun _ => FetchOutcome.ok (JSON.obj [("k", JSON.str "v")])) 3).2.1 +
      (loadTranslationWithRetry
        ((loadTranslationWithRetry cacheEmpty "it" "common"
          (fun _ => FetchOutcome.ok (JSON.obj [("k", JSON.str "v")])) 3).2.2)
        "it" "common" (fun _ => FetchOutcome.netError) 3).2.1 = 1 :=
  ⟨by decide,
    (claim_C5_cache_idempotence "it" "common" cacheEmpty
      (fun _ => FetchOutcome.ok (JSON.obj [("k", JSON.str "v")]))
      (fun _ => FetchOutcome.netError) (JSON.obj [("k", JSON.str "v")])
      (by decide) (by decide)).1,
    (claim_C5_cache_idempotence "it" "common" cacheEmpty
      (fun _ => FetchOutcome.ok (JSON.obj [("k", JSON.str "v")]))
      (fun _ => FetchOutcome.netError) (JSON.obj [("k", JSON.str "v")])
      (by decide) (by decide)).2.1,
    (claim_C5_cache_idempotence "it" "common" cacheEmpty
      (fun _ => FetchOutcome.ok (JSON.obj [("k", JSON.str "v")]))
      (fun _ => FetchOutcome.netError) (JSON.obj [("k", JSON.str "v")])
      (by decide) (by decide)).2.2 (by decide) (by decide)⟩

/-! ## Claim C4: backoff delay -/

/-- Claim **C4**: for every failed, non-final attempt number `k` (1 ≤ k < 3)
the delay before the next attempt is `2 ^ k * 100` milliseconds plus a
jitter term `Math.random() * 100` lying in `[0, 100)`; and for any two
consecutive retries the second delay is at least the first, whatever
the two jitter draws are. -/
theorem claim_C4_backoff_monotone (k : Nat) (r1 r2 : ℚ) (hk : 1 ≤ k)
    (_hk3 : k < 3) (h10 : 0 ≤ r1) (h11 : r1 < 1) (h20 : 0 ≤ r2)
    (_h21 : r2 < 1) :
    (∃ jitter : ℚ, 0 ≤ jitter ∧ jitter < 100 ∧
      retryDelay k r1 = 2 ^ k * 100 + jitter) ∧
    retryDelay k r1 ≤ retryDelay (k + 1) r2 := by
  constructor
  · exact ⟨r1 * 100, by nlinarith, by nlinarith, rfl⟩
  · unfold retryDelay
    have h2k : (2 : ℚ) ≤ 2 ^ k := by
      calc (2 : ℚ) = 2 ^ 1 := (pow_one 2).symm
        _ ≤ 2 ^ k := pow_le_pow_right₀ (by norm_num) hk
    have hp : (2 : ℚ) ^ (k + 1) = 2 ^ k * 2 := pow_succ 2 k
    rw [hp]
    nlinarith [h2k, h20, h11]

/-- Claim **C4, witness**: the first retry delay (attempt 1) with maximal
jitter is still at most the second (attempt 2) with zero jitter. -/
theorem claim_C4_backoff_monotone_witness :
    (∃ jitter : ℚ, 0 ≤ jitter ∧ jitter < 100 ∧
      retryDelay 1 (99 / 100) = 2 ^ 1 * 100 + jitter) ∧
    retryDelay 1 (99 / 100) ≤ retryDelay 2 0 :=
  claim_C4_backoff_monotone 1 (99 / 100) 0 (by norm_num) (by norm_num)
    (by norm_num) (by norm_num) (by norm_num) (by norm_num)

/-! ## Claims C6, C7, C10: the completeness checker -/

/-- Every issue `checkMissingKeys` reports arises from diffing a
non-reference language against the first (reference) language, and is
one of: a warning-level `missing-key` (reference key absent from the
target), an info-level `extra-key` (target key absent from the
reference), or an error-level `invalid-file` (unreadable target file);
in every case the reference file parsed. -/
theorem mem_checkMissingKeys_shape {fs : LocalesFS} {i : Issue}
    (h : i ∈ checkMissingKeys fs) :
    ∃ referenceLang rest, fs.languages = referenceLang :: rest ∧
      i.language ∈ rest ∧
      ((i.type = "missing-key" ∧ i.severity = "warning" ∧
        ∃ refContent langContent key,
          readLocaleFile fs referenceLang i.ns = some (.valid refContent) ∧
          readLocaleFile fs i.language i.ns = some (.valid langContent) ∧
          i.key = some key ∧ key ∈ extractKeys refContent "" ∧
          (extractKeys langContent "").contains key = false) ∨
       (i.type = "extra-key" ∧ i.severity = "info" ∧
        ∃ refContent langContent key,
          readLocaleFile fs referenceLang i.ns = some (.valid refContent) ∧
          readLocaleFile fs i.language i.ns = some (.valid langContent) ∧
          i.key = some key ∧ key ∈ extractKeys langContent "" ∧
          (extractKeys refContent "").contains key = false) ∨
       (i.type = "invalid-file" ∧ i.severity = "error" ∧
        ∃ refContent,
          readLocaleFile fs referenceLang i.ns = some (.valid refContent))) := by
  unfold checkMissingKeys at h
  cases hl : fs.languages with
  | nil => rw [hl] at h; simp at h
  | cons referenceLang rest =>
    rw [hl] at h
    simp only [List.mem_flatMap] at h
    obtain ⟨nsName, _, h⟩ := h
    cases hread : readLocaleFile fs referenceLang nsName with
    | none => rw [hread] at h; simp at h
    | some fc =>
      cases fc with
      | invalid => rw [hread] at h; simp at h
      | valid refContent =>
        rw [hread] at h
        simp only [List.mem_flatMap] at h
        obtain ⟨lang, hlang, h⟩ := h
        unfold checkLangNamespace at h
        cases hread2 : readLocaleFile fs lang nsName with
        | none =>
          rw [hread2] at h
          simp only [List.mem_singleton] at h
          subst h
          exact ⟨referenceLang, rest, rfl, hlang,
            Or.inr (Or.inr ⟨rfl, rfl, refContent, hread⟩)⟩
        | some fc2 =>
          cases fc2 with
          | invalid =>
            rw [hread2] at h
            simp only [List.mem_singleton] at h
            subst h
            exact ⟨referenceLang, rest, rfl, hlang,
              Or.inr (Or.inr ⟨rfl, rfl, refContent, hread⟩)⟩
          | valid langContent =>
            rw [hread2] at h
            simp only at h
            unfold keyDiffIssues at h
            rw [List.mem_append] at h
            rcases h with h | h
            · rw [List.mem_filterMap] at h
              obtain ⟨key, hkey, hif⟩ := h
              by_cases hc : (extractKeys langContent "").contains key
              · rw [if_pos hc] at hif; cases hif
              · rw [if_neg hc] at hif
                obtain rfl := Option.some_inj.mp hif
                exact ⟨referenceLang, rest, rfl, hlang,
                  Or.inl ⟨rfl, rfl, refContent, langContent, key, hread,
                    hread2, rfl, hkey, by simpa using hc⟩⟩
            · rw [List.mem_filterMap] at h
              obtain ⟨key, hkey, hif⟩ := h
              by_cases hc : (extractKeys refContent "").contains key
              · rw [if_pos hc] at hif; cases hif
              · rw [if_neg hc] at hif
                obtain rfl := Option.some_inj.mp hif
                exact ⟨referenceLang, rest, rfl, hlang,
                  Or.inr (Or.inl ⟨rfl, rfl, refContent, langContent, key,
                    hread, hread2, rfl, hkey, by simpa using hc⟩)⟩

/-- Locale tree refuting C6: reference `en/common.json = {a: "x"}`,
target `it/common.json = {}` — a leaf key of the reference is missing
from the other language and no namespace file is missing. -/
def c6fs : LocalesFS :=
  ⟨["en", "it"],
   [("en", [("common", .valid (.obj [("a", .str "x")]))]),
    ("it", [("common", .valid (.obj []))])]⟩

/-- Claim **C6, counterexample**: on `c6fs` the checker produces exactly one
`missing-key` issue — whose severity is `"warning"`, not error-level —
and the script exits 0, not non-zero. -/
theorem claim_C6_counterexample :
    checkerIssues c6fs =
      [⟨"missing-key", "warning", "it", "common", some "a"⟩] ∧
    checkerExitCode c6fs = 0 := by
  have h : checkerIssues c6fs =
      [⟨"missing-key", "warning", "it", "common", some "a"⟩] := by
    simp [checkerIssues, checkMissingFiles, checkMissingKeys, c6fs,
      collectNamespaces, langNamespaces, addUnique, readLocaleFile,
      jsMapGet, checkLangNamespace, keyDiffIssues, extractKeys,
      extractKeysFields]
  refine ⟨h, ?_⟩
  rw [checkerExitCode, checkerErrorCount, h]
  simp

/-- Claim **C6 (amended)**: the checker classifies `missing-key` issues as
*warning*-level, not error-level; when the only issues are missing keys
(no `missing-file` and no `invalid-file` issue), the script exits 0.
It exits non-zero only for error-level issues. -/
theorem claim_C6_missing_key_level (fs : LocalesFS)
    (hmf : checkMissingFiles fs = [])
    (hni : ∀ i ∈ checkMissingKeys fs, i.type ≠ "invalid-file") :
    (∀ i ∈ checkerIssues fs, i.type = "missing-key" →
      i.severity = "warning") ∧
    checkerExitCode fs = 0 := by
  have hsev : ∀ i ∈ checkMissingKeys fs, i.severity ≠ "error" ∧
      (i.type = "missing-key" → i.severity = "warning") := by
    intro i hi
    obtain ⟨r, rest, _, _, hcase⟩ := mem_checkMissingKeys_shape hi
    rcases hcase with ⟨_, hs, -⟩ | ⟨ht, hs, -⟩ | ⟨ht, _, -⟩
    · exact ⟨by rw [hs]; decide, fun _ => hs⟩
    · refine ⟨by rw [hs]; decide, fun htk => ?_⟩
      rw [ht] at htk
      exact absurd htk (by decide)
    · exact absurd ht (hni i hi)
  constructor
  · intro i hi htype
    unfold checkerIssues at hi
    rw [hmf] at hi
    rw [List.nil_append] at hi
    exact (hsev i hi).2 htype
  · rw [checkerExitCode, checkerErrorCount, checkerIssues, hmf,
      List.nil_append]
    have hfil : (checkMissingKeys fs).filter
        (fun i => i.severity = "error") = [] := by
      rw [List.filter_eq_nil_iff]
      intro i hi
      simp only [decide_eq_true_eq]
      exact (hsev i hi).1
    rw [hfil]
    simp

/-- Claim **C6, witness**: the amended statement applied to `c6fs`. -/
theorem claim_C6_missing_key_level_witness :
    checkMissingFiles c6fs = [] ∧ checkerExitCode c6fs = 0 ∧
    (∀ i ∈ checkerIssues c6fs, i.type = "missing-key" →
      i.severity = "warning") := by
  have hmf : checkMissingFiles c6fs = [] := by
    simp [checkMissingFiles, c6fs, collectNamespaces, langNamespaces,
      addUnique, readLocaleFile, jsMapGet]
  have hmk : checkMissingKeys c6fs =
      [⟨"missing-key", "warning", "it", "common", some "a"⟩] := by
    simp [checkMissingKeys, c6fs, collectNamespaces, langNamespaces,
      addUnique, readLocaleFile, jsMapGet, checkLangNamespace,
      keyDiffIssues, extractKeys, extractKeysFields]
  have hni : ∀ i ∈ checkMissingKeys c6fs, i.type ≠ "invalid-file" := by
    rw [hmk]
    intro i hi
    rw [List.mem_singleton] at hi
    subst hi
    decide
  obtain ⟨h1, h2⟩ := claim_C6_missing_key_level c6fs hmf hni
  exact ⟨hmf, h2, h1⟩

/-- The locale tree of the spec's completeness-checker example:
reference `{a: {b: "x", c: "y"}}`, target `{a: {b: "z"}}`, both files
present. -/
def c7fs : LocalesFS :=
  ⟨["en", "it"],
   [("en", [("common",
      .valid (.obj [("a", .obj [("b", .str "x"), ("c", .str "y")])]))]),
    ("it", [("common",
      .valid (.obj [("a", .obj [("b", .str "z")])]))])]⟩

/-- The single issue the checker reports on `c7fs`. -/
def c7issue : Issue := ⟨"missing-key", "warning", "it", "common", some "a.c"⟩

/-- The key diff on `c7fs` evaluates to exactly the one `a.c` issue. -/
theorem c7fs_missing_keys : checkMissingKeys c7fs = [c7issue] := by
  simp [checkMissingKeys, c7fs, c7issue, collectNamespaces, langNamespaces,
    addUnique, readLocaleFile, jsMapGet, checkLangNamespace, keyDiffIssues,
    extractKeys, extractKeysFields]

/-- Claim **C7**: on the reference dictionary `{a: {b: "x", c: "y"}}` against
the target `{a: {b: "z"}}` (both files present) the checker produces
exactly one `missing-key` issue, for the flattened path `a.c`, and no
`extra-key` or `missing-file` issues. -/
theorem claim_C7_key_diff :
    checkerIssues c7fs =
      [⟨"missing-key", "warning", "it", "common", some "a.c"⟩] ∧
    ((checkerIssues c7fs).filter (fun i => i.type = "missing-key")).length
      = 1 ∧
    ((checkerIssues c7fs).filter (fun i => i.type = "extra-key")).length
      = 0 ∧
    ((checkerIssues c7fs).filter (fun i => i.type = "missing-file")).length
      = 0 := by
  have hmf : checkMissingFiles c7fs = [] := by
    simp [checkMissingFiles, c7fs, collectNamespaces, langNamespaces,
      addUnique, readLocaleFile, jsMapGet]
  have h : checkerIssues c7fs = [c7issue] := by
    rw [checkerIssues, hmf, c7fs_missing_keys, List.nil_append]
  rw [h]
  refine ⟨by rw [c7issue], ?_, ?_, ?_⟩ <;> simp [c7issue]

/-- Claim **C10**: with no languages the key check reports nothing; with
languages, the first directory entry is the reference: every reported
issue concerns a non-reference language, a `missing-key` issue means
the key flattens out of the reference file's dictionary and not out of
the target's, and an `extra-key` issue the reverse. -/
theorem claim_C10_reference_language (fs : LocalesFS) :
    (fs.languages = [] → checkMissingKeys fs = []) ∧
    ∀ referenceLang rest, fs.languages = referenceLang :: rest →
      ∀ i ∈ checkMissingKeys fs,
        i.language ∈ rest ∧
        (i.type = "missing-key" →
          ∃ refContent langContent key,
            readLocaleFile fs referenceLang i.ns = some (.valid refContent) ∧
            readLocaleFile fs i.language i.ns = some (.valid langContent) ∧
            i.key = some key ∧ key ∈ extractKeys refContent "" ∧
            (extractKeys langContent "").contains key = false) ∧
        (i.type = "extra-key" →
          ∃ refContent langContent key,
            readLocaleFile fs referenceLang i.ns = some (.valid refContent) ∧
            readLocaleFile fs i.language i.ns = some (.valid langContent) ∧
            i.key = some key ∧ key ∈ extractKeys langContent "" ∧
            (extractKeys refContent "").contains key = false) := by
  constructor
  · intro h
    unfold checkMissingKeys
    rw [h]
  · intro referenceLang rest hl i hi
    obtain ⟨r', rest', hl', hlang, hcase⟩ := mem_checkMissingKeys_shape hi
    rw [hl] at hl'
    injection hl' with h1 h2
    subst h1
    subst h2
    refine ⟨hlang, ?_, ?_⟩
    · intro ht
      rcases hcase with ⟨-, -, hrest⟩ | ⟨ht2, -, -⟩ | ⟨ht2, -, -⟩
      · exact hrest
      · rw [ht2] at ht; exact absurd ht (by decide)
      · rw [ht2] at ht; exact absurd ht (by decide)
    · intro ht
      rcases hcase with ⟨ht2, -, -⟩ | ⟨-, -, hrest⟩ | ⟨ht2, -, -⟩
      · rw [ht2] at ht; exact absurd ht (by decide)
      · exact hrest
      · rw [ht2] at ht; exact absurd ht (by decide)

/-- Claim **C10, witness**: the characterization applied to `c7fs` and its
single reported issue. -/
theorem claim_C10_reference_language_witness :
    c7fs.languages = "en" :: ["it"] ∧ c7issue ∈ checkMissingKeys c7fs ∧
    (c7issue.language ∈ ["it"] ∧
      (c7issue.type = "missing-key" →
        ∃ refContent langContent key,
          readLocaleFile c7fs "en" c7issue.ns = some (.valid refContent) ∧
          readLocaleFile c7fs c7issue.language c7issue.ns =
            some (.valid langContent) ∧
          c7issue.key = some key ∧ key ∈ extractKeys refContent "" ∧
          (extractKeys langContent "").contains key = false) ∧
      (c7issue.type = "extra-key" →
        ∃ refContent langContent key,
          readLocaleFile c7fs "en" c7issue.ns = some (.valid refContent) ∧
          readLocaleFile c7fs c7issue.language c7issue.ns =
            some (.valid langContent) ∧
          c7issue.key = some key ∧ key ∈ extractKeys langContent "" ∧
          (extractKeys refContent "").contains key = false)) := by
  have hmem : c7issue ∈ checkMissingKeys c7fs := by
    rw [c7fs_missing_keys]
    exact List.mem_singleton.mpr rfl
  exact ⟨rfl, hmem,
    (claim_C10_reference_language c7fs).2 "en" ["it"] rfl c7issue hmem⟩

/-! ## Claim C8: the `t` wrapper's default value -/

/-- Claim **C8, counterexample**: the claim "t(key, defaultValue) with a
string defaultValue returns that defaultValue verbatim" fails for the
empty string: the guard `translation === key && defaultValue` treats
`""` as falsy, so `t` returns the key instead of the supplied default.
`fun k _ => k` is the underlying resolution on a key absent from both
the active and the fallback namespace (it yields the key itself, as the
claim's premise states). -/
theorem claim_C8_counterexample :
    useTranslationT (fun k _ => k) "auth.errors.timeout" (some (.str ""))
      = "auth.errors.timeout" ∧
    ("auth.errors.timeout" : String) ≠ "" := by
  constructor
  · rfl
  · decide

/-- Claim **C8 (amended)**: whenever the underlying resolution yields the key
itself (the key is absent from both the active and the fallback
namespace), `t(key, defaultValue)` with a *nonempty* string
defaultValue returns that defaultValue verbatim — an empty-string
default is ignored and the key is returned (see
`claim_C8_counterexample`) — and `t(key)` without a defaultValue
returns the key unchanged. -/
theorem claim_C8_default_value
    (originalT : String → Option TOptions → String) (key : String)
    (horig : ∀ o, originalT key o = key) :
    (∀ dv : String, dv ≠ "" →
      useTranslationT originalT key (some (.str dv)) = dv) ∧
    useTranslationT originalT key none = key := by
  constructor
  · intro dv hdv
    show (if originalT key none = key ∧ dv ≠ "" then dv
      else originalT key none) = dv
    rw [horig none]
    rw [if_pos ⟨rfl, hdv⟩]
  · show originalT key none = key
    exact horig none

/-- Claim **C8, witness**: concrete resolution failure with a nonempty
default and with no default. -/
theorem claim_C8_default_value_witness :
    useTranslationT (fun k _ => k) "dashboard.title"
      (some (.str "Dashboard")) = "Dashboard" ∧
    useTranslationT (fun k _ => k) "dashboard.title" none =
      "dashboard.title" :=
  ⟨(claim_C8_default_value (fun k _ => k) "dashboard.title"
      (fun _ => rfl)).1 "Dashboard" (by decide),
    (claim_C8_default_value (fun k _ => k) "dashboard.title"
      (fun _ => rfl)).2⟩
